import Mathlib

/-!
Verification of the classical bit-processing logic of qkd_demo.py (BB84
demonstration script): the xor cipher, the text codec, the key sifting step,
and the control flow of main around the external quantum-circuit simulator.

Python strings are modelled as lists of character code points, and bit
sequences as lists of 0/1 naturals, exactly the values the script manipulates.
The external cirq circuit simulation is abstracted as a channel function from
(sender bits, sender basis, receiver basis) to measured bits; main only
depends on it through this interface.
-/

namespace QKD

/-- Loop body of xor_bits in qkd_demo.py: element i of the result is
bits[i] xor key[i % len(key)]. -/
def xorCycle (bits key : List Nat) : List Nat :=
  (List.range bits.length).map fun i => bits.getD i 0 ^^^ key.getD (i % key.length) 0

/-- xor_bits from qkd_demo.py. Python raises ZeroDivisionError at
bits[i] ^ key[i % len(key)] when the key is empty and the loop body runs at
least once; that exceptional outcome is modelled as none. -/
def xor_bits (bits key : List Nat) : Option (List Nat) :=
  if bits.length = 0 then some []
  else if key.length = 0 then none
  else some (xorCycle bits key)

/-- Binary digits of n, most significant digit first, as produced by
bin(n)[2:] for positive n. The first argument is structural fuel; the value is
the digit list whenever n is at most the fuel. -/
def binAux : Nat → Nat → List Nat
  | _, 0 => []
  | 0, _ + 1 => []
  | fuel + 1, n + 1 => binAux fuel ((n + 1) / 2) ++ [(n + 1) % 2]

/-- Digit list bin(ord(char))[2:] of string_to_bits: for 0 Python yields the
single digit 0. -/
def pyBin (n : Nat) : List Nat :=
  if n = 0 then [0] else binAux n n

/-- One iteration of the loop of string_to_bits: the digit list of the code
point, left padded with zeros to width 8 by the slice of the literal
00000000. When there are more than eight digits the slice is empty, so no
padding happens and no error is raised. -/
def charToBits (c : Nat) : List Nat :=
  List.replicate (8 - (pyBin c).length) 0 ++ pyBin c

/-- string_to_bits from qkd_demo.py, on the list of code points of the
string. -/
def string_to_bits (s : List Nat) : List Nat :=
  (s.map charToBits).flatten

/-- Value of int(digits, 2) on a list of 0/1 digits, most significant
first. -/
def bitsToNat (bits : List Nat) : Nat :=
  bits.foldl (fun acc b => acc * 2 + b) 0

/-- bits_to_string from qkd_demo.py: each of the first floor(len/8) groups of
eight bits becomes one code point; trailing bits beyond the last full group
are dropped. -/
def bits_to_string (bits : List Nat) : List Nat :=
  (List.range (bits.length / 8)).map fun b => bitsToNat ((bits.drop (b * 8)).take 8)

/-- good_bits of main: the indices i below len(a_basis) such that
a_basis[i] xor b_basis[i] is 0, in increasing order. -/
def goodBits (aBasis bBasis : List Nat) : List Nat :=
  (List.range aBasis.length).filter fun i => aBasis.getD i 0 ^^^ bBasis.getD i 0 == 0

/-- Comprehension [bits[i] for i in range(basisLen) if i in good] used for
both keys in main. -/
def siftKey (bits : List Nat) (basisLen : Nat) (good : List Nat) : List Nat :=
  ((List.range basisLen).filter fun i => good.contains i).map fun i => bits.getD i 0

/-- a_key of main: the sender bits at the basis-agreement positions. -/
def a_key (aBits aBasis bBasis : List Nat) : List Nat :=
  siftKey aBits aBasis.length (goodBits aBasis bBasis)

/-- b_key of main: the receiver measured bits at the basis-agreement
positions. -/
def b_key (bBits aBasis bBasis : List Nat) : List Nat :=
  siftKey bBits bBasis.length (goodBits aBasis bBasis)

/-- Quantum phase of main, with the external circuit simulation abstracted as
a channel function from (sender bits, sender basis, receiver basis) to
measured bits. The second component records every channel invocation in
order, one entry per cirq.Simulator().run call in main, as the triple
(sender bits, sender basis, receiver basis) handed to bb84_circuit. -/
def runExchange (channel : List Nat → List Nat → List Nat → List Nat)
    (aBits aBasis bBasis eBasis : List Nat) (eve : Bool) :
    List Nat × List (List Nat × List Nat × List Nat) :=
  if eve then
    let eveBits := channel aBits aBasis eBasis
    (channel eveBits eBasis bBasis,
      [(aBits, aBasis, eBasis), (eveBits, eBasis, bBasis)])
  else
    (channel aBits aBasis bBasis, [(aBits, aBasis, bBasis)])

/-- main of qkd_demo.py after the three random draws, parametric in the
channel. The result is none when xor_bits faults on an empty key, otherwise
the pair of the interference flag (true exactly when the two sifted keys
differ, the case in which main prints its warning and continues) and the
decoded message printed at the end. -/
def mainRun (channel : List Nat → List Nat → List Nat → List Nat)
    (msg aBits aBasis bBasis eBasis : List Nat) (eve : Bool) :
    Option (Bool × List Nat) :=
  let bitMsg := string_to_bits msg
  let bBits := (runExchange channel aBits aBasis bBasis eBasis eve).1
  let aKey := a_key aBits aBasis bBasis
  let bKey := b_key bBits aBasis bBasis
  match xor_bits bitMsg aKey with
  | none => none
  | some encrypted =>
    match xor_bits encrypted bKey with
    | none => none
    | some decrypted => some (decide (aKey ≠ bKey), bits_to_string decrypted)

/-- Ideal noiseless channel of the spec: one measured bit per sent bit, and
whenever the receiver basis equals the sender basis at a position the
measured bit equals the sent bit there. -/
def IdealChannel (channel : List Nat → List Nat → List Nat → List Nat) : Prop :=
  (∀ bits sb rb, (channel bits sb rb).length = bits.length) ∧
  ∀ bits sb rb i, i < bits.length → rb.getD i 0 = sb.getD i 0 →
    (channel bits sb rb).getD i 0 = bits.getD i 0

lemma xorCycle_length (bits key : List Nat) : (xorCycle bits key).length = bits.length := by
  simp [xorCycle]

lemma xorCycle_getD (bits key : List Nat) (i : Nat) (h : i < bits.length) :
    (xorCycle bits key).getD i 0 = bits.getD i 0 ^^^ key.getD (i % key.length) 0 := by
  have h2 : i < (xorCycle bits key).length := by rw [xorCycle_length]; exact h
  rw [List.getD_eq_getElem _ _ h2]
  simp [xorCycle]

lemma xorCycle_involution (bits key : List Nat) :
    xorCycle (xorCycle bits key) key = bits := by
  apply List.ext_getElem
  · rw [xorCycle_length, xorCycle_length]
  · intro i h1 h2
    rw [← List.getD_eq_getElem _ 0 h1, ← List.getD_eq_getElem _ 0 h2]
    rw [xorCycle_getD _ _ _ (by rw [xorCycle_length]; exact h2),
      xorCycle_getD _ _ _ h2, Nat.xor_cancel_right]

lemma xor_bits_some (bits key : List Nat) (hk : key ≠ []) :
    xor_bits bits key = some (xorCycle bits key) := by
  unfold xor_bits
  rcases Nat.eq_zero_or_pos bits.length with h | h
  · rw [if_pos h]
    have hb : bits = [] := List.length_eq_zero.mp h
    subst hb
    simp [xorCycle]
  · rw [if_neg (by omega), if_neg (fun h0 => hk (List.length_eq_zero.mp h0))]

lemma bitsToNat_append_singleton (xs : List Nat) (b : Nat) :
    bitsToNat (xs ++ [b]) = bitsToNat xs * 2 + b := by
  simp [bitsToNat, List.foldl_append]

lemma binAux_bitsToNat : ∀ fuel n, n ≤ fuel → bitsToNat (binAux fuel n) = n := by
  intro fuel
  induction fuel with
  | zero =>
    intro n hn
    have hz : n = 0 := by omega
    subst hz
    simp [binAux, bitsToNat]
  | succ f ih =>
    intro n hn
    match n with
    | 0 => simp [binAux, bitsToNat]
    | m + 1 =>
      have hfuel : (m + 1) / 2 ≤ f := by
        have : (m + 1) / 2 < m + 1 := Nat.div_lt_self (Nat.succ_pos m) (show 1 < 2 by decide)
        omega
      simp only [binAux]
      rw [bitsToNat_append_singleton, ih _ hfuel]
      omega

lemma binAux_length : ∀ fuel n k, n ≤ fuel → n < 2 ^ k → (binAux fuel n).length ≤ k := by
  intro fuel
  induction fuel with
  | zero =>
    intro n k hn _
    have hz : n = 0 := by omega
    subst hz
    simp [binAux]
  | succ f ih =>
    intro n k hn hk
    match n with
    | 0 => simp [binAux]
    | m + 1 =>
      match k with
      | 0 =>
        have h1 : (2 : Nat) ^ 0 = 1 := rfl
        omega
      | j + 1 =>
        have hfuel : (m + 1) / 2 ≤ f := by
          have : (m + 1) / 2 < m + 1 := Nat.div_lt_self (Nat.succ_pos m) (show 1 < 2 by decide)
          omega
        have hlt : (m + 1) / 2 < 2 ^ j := by
          rw [Nat.pow_succ] at hk
          omega
        have := ih ((m + 1) / 2) j hfuel hlt
        simp only [binAux, List.length_append, List.length_singleton]
        omega

lemma bitsToNat_pyBin (n : Nat) : bitsToNat (pyBin n) = n := by
  unfold pyBin
  split
  · rename_i h
    subst h
    simp [bitsToNat]
  · exact binAux_bitsToNat n n le_rfl

lemma pyBin_length_le (n : Nat) (h : n < 256) : (pyBin n).length ≤ 8 := by
  unfold pyBin
  split
  · simp
  · exact binAux_length n n 8 le_rfl (by omega)

lemma charToBits_length (c : Nat) (h : c < 256) : (charToBits c).length = 8 := by
  have := pyBin_length_le c h
  simp only [charToBits, List.length_append, List.length_replicate]
  omega

lemma bitsToNat_cons_zero (l : List Nat) : bitsToNat (0 :: l) = bitsToNat l := by
  simp [bitsToNat]

lemma bitsToNat_replicate_zero_append (m : Nat) (bits : List Nat) :
    bitsToNat (List.replicate m 0 ++ bits) = bitsToNat bits := by
  induction m with
  | zero => simp
  | succ k ih =>
    rw [List.replicate_succ, List.cons_append, bitsToNat_cons_zero, ih]

lemma bitsToNat_charToBits (c : Nat) : bitsToNat (charToBits c) = c := by
  rw [charToBits, bitsToNat_replicate_zero_append, bitsToNat_pyBin]

lemma bits_to_string_chunk (chunk rest : List Nat) (h : chunk.length = 8) :
    bits_to_string (chunk ++ rest) = bitsToNat chunk :: bits_to_string rest := by
  unfold bits_to_string
  have hlen : (chunk ++ rest).length = 8 + rest.length := by
    simp [h, Nat.add_comm]
  rw [hlen]
  have hdiv : (8 + rest.length) / 8 = rest.length / 8 + 1 := by omega
  rw [hdiv, List.range_succ_eq_map, List.map_cons, List.map_map]
  congr 1
  · rw [Nat.zero_mul, List.drop_zero, ← h, List.take_left]
  · apply List.map_congr_left
    intro b _
    simp only [Function.comp_apply, Nat.succ_eq_add_one]
    congr 1
    have hd : List.drop 8 (chunk ++ rest) = rest := by
      rw [← h]
      exact List.drop_left chunk rest
    rw [Nat.succ_mul, Nat.add_comm, ← List.drop_drop, hd]

lemma string_to_bits_cons (c : Nat) (cs : List Nat) :
    string_to_bits (c :: cs) = charToBits c ++ string_to_bits cs := by
  simp [string_to_bits]

lemma codec_roundtrip_aux (s : List Nat) (h : ∀ c ∈ s, c < 256) :
    bits_to_string (string_to_bits s) = s := by
  induction s with
  | nil => simp [string_to_bits, bits_to_string]
  | cons c cs ih =>
    have hc : c < 256 := h c (by simp)
    have hcs : ∀ x ∈ cs, x < 256 := fun x hx => h x (by simp [hx])
    rw [string_to_bits_cons, bits_to_string_chunk _ _ (charToBits_length c hc),
      bitsToNat_charToBits, ih hcs]

lemma string_to_bits_length (s : List Nat) (h : ∀ c ∈ s, c < 256) :
    (string_to_bits s).length = 8 * s.length := by
  induction s with
  | nil => simp [string_to_bits]
  | cons c cs ih =>
    have hcs : ∀ x ∈ cs, x < 256 := fun x hx => h x (by simp [hx])
    rw [string_to_bits_cons, List.length_append, charToBits_length c (h c (by simp)),
      ih hcs, List.length_cons]
    omega

lemma mem_goodBits (A B : List Nat) (i : Nat) :
    i ∈ goodBits A B ↔ i < A.length ∧ A.getD i 0 = B.getD i 0 := by
  simp [goodBits, List.mem_filter, List.mem_range, Nat.xor_eq_zero]

lemma contains_iff_mem_nat (l : List Nat) (a : Nat) : l.contains a = true ↔ a ∈ l :=
  List.elem_iff

lemma filter_contains_filter (l : List Nat) (p : Nat → Bool) :
    (l.filter fun i => (l.filter p).contains i) = l.filter p := by
  apply List.filter_congr
  intro a ha
  by_cases hp : p a = true
  · rw [hp, (contains_iff_mem_nat _ _).mpr (List.mem_filter.mpr ⟨ha, hp⟩)]
  · rw [Bool.eq_false_iff.mpr hp, Bool.eq_false_iff]
    intro hc
    exact hp (List.mem_filter.mp ((contains_iff_mem_nat _ _).mp hc)).2

lemma siftKey_eq_map (bits A B : List Nat) (n : Nat) (hn : n = A.length) :
    siftKey bits n (goodBits A B) = (goodBits A B).map fun i => bits.getD i 0 := by
  subst hn
  unfold siftKey goodBits
  rw [filter_contains_filter]

lemma a_key_eq (aBits aBasis bBasis : List Nat) :
    a_key aBits aBasis bBasis = (goodBits aBasis bBasis).map fun i => aBits.getD i 0 :=
  siftKey_eq_map aBits aBasis bBasis aBasis.length rfl

lemma b_key_eq (bBits aBasis bBasis : List Nat) (h : bBasis.length = aBasis.length) :
    b_key bBits aBasis bBasis = (goodBits aBasis bBasis).map fun i => bBits.getD i 0 :=
  siftKey_eq_map bBits aBasis bBasis bBasis.length h

lemma keys_equal_of_ideal (channel : List Nat → List Nat → List Nat → List Nat)
    (hch : IdealChannel channel) (aBits aBasis bBasis : List Nat)
    (hA : aBasis.length = aBits.length) (hB : bBasis.length = aBasis.length) :
    a_key aBits aBasis bBasis = b_key (channel aBits aBasis bBasis) aBasis bBasis := by
  rw [a_key_eq, b_key_eq _ _ _ hB]
  apply List.map_congr_left
  intro i hi
  rw [mem_goodBits] at hi
  exact (hch.2 aBits aBasis bBasis i (by omega) hi.2.symm).symm

/-- C2: for equal-length basis sequences the sifting step computes exactly the
index set of positions where the bases agree (xor 0), in increasing order,
projects both bit sequences onto it preserving the relative order of indices,
and both sifted keys have length equal to the number of agreeing positions. -/
theorem sifting_correct (A B sa sb : List Nat)
    (hB : B.length = A.length) (hsa : sa.length = A.length) (hsb : sb.length = A.length) :
    (∀ i, i ∈ goodBits A B ↔ i < A.length ∧ A.getD i 0 = B.getD i 0) ∧
    List.Pairwise (· < ·) (goodBits A B) ∧
    siftKey sa A.length (goodBits A B) = (goodBits A B).map (fun i => sa.getD i 0) ∧
    siftKey sb B.length (goodBits A B) = (goodBits A B).map (fun i => sb.getD i 0) ∧
    (siftKey sa A.length (goodBits A B)).length = (goodBits A B).length ∧
    (siftKey sb B.length (goodBits A B)).length = (goodBits A B).length := by
  refine ⟨mem_goodBits A B, ?_, siftKey_eq_map sa A B _ rfl, siftKey_eq_map sb A B _ hB,
    ?_, ?_⟩
  · unfold goodBits
    exact (List.pairwise_lt_range _).filter _
  · rw [siftKey_eq_map sa A B _ rfl, List.length_map]
  · rw [siftKey_eq_map sb A B _ hB, List.length_map]

/-- Witness for C2 at concrete sequences of length two agreeing at index 0. -/
theorem sifting_correct_witness :
    (∀ i, i ∈ goodBits [0, 1] [0, 0] ↔ i < [0, 1].length ∧ [0, 1].getD i 0 = [0, 0].getD i 0) ∧
    List.Pairwise (· < ·) (goodBits [0, 1] [0, 0]) ∧
    siftKey [1, 0] [0, 1].length (goodBits [0, 1] [0, 0])
      = (goodBits [0, 1] [0, 0]).map (fun i => [1, 0].getD i 0) ∧
    siftKey [1, 1] [0, 0].length (goodBits [0, 1] [0, 0])
      = (goodBits [0, 1] [0, 0]).map (fun i => [1, 1].getD i 0) ∧
    (siftKey [1, 0] [0, 1].length (goodBits [0, 1] [0, 0])).length
      = (goodBits [0, 1] [0, 0]).length ∧
    (siftKey [1, 1] [0, 0].length (goodBits [0, 1] [0, 0])).length
      = (goodBits [0, 1] [0, 0]).length :=
  sifting_correct [0, 1] [0, 0] [1, 0] [1, 1] rfl rfl rfl

/-- C3: applying the xor cipher twice with the same non-empty key is the
identity on the bit sequence. -/
theorem xor_involution (bits key : List Nat) (hk : key ≠ []) :
    ∃ once, xor_bits bits key = some once ∧ xor_bits once key = some bits :=
  ⟨xorCycle bits key, xor_bits_some bits key hk, by
    rw [xor_bits_some _ _ hk, xorCycle_involution]⟩

/-- Witness for C3 at a concrete five-bit message and two-bit key. -/
theorem xor_involution_witness :
    ∃ once, xor_bits [0, 1, 1, 0, 1] [1, 0] = some once ∧
      xor_bits once [1, 0] = some [0, 1, 1, 0, 1] :=
  xor_involution [0, 1, 1, 0, 1] [1, 0] (by decide)

/-- C4: decoding inverts encoding for strings whose code points are all below
256, and the encoding renders each character as exactly eight bits. -/
theorem codec_roundtrip (s : List Nat) (h : ∀ c ∈ s, c < 256) :
    bits_to_string (string_to_bits s) = s ∧ (string_to_bits s).length = 8 * s.length :=
  ⟨codec_roundtrip_aux s h, string_to_bits_length s h⟩

/-- Witness for C4 at the two-character message Hi. -/
theorem codec_roundtrip_witness :
    bits_to_string (string_to_bits [72, 105]) = [72, 105] ∧
    (string_to_bits [72, 105]).length = 8 * [72, 105].length :=
  codec_roundtrip [72, 105] (by decide)

/-- C5: with a non-empty key, xor_bits returns a sequence of exactly the input
length whose element i is input[i] xor key[i mod len(key)]. -/
theorem xor_bits_spec (bits key : List Nat) (hk : 0 < key.length) :
    ∃ out, xor_bits bits key = some out ∧ out.length = bits.length ∧
      ∀ i, i < bits.length → out.getD i 0 = bits.getD i 0 ^^^ key.getD (i % key.length) 0 :=
  ⟨xorCycle bits key, xor_bits_some bits key (List.length_pos.mp hk),
    xorCycle_length bits key, fun i hi => xorCycle_getD bits key i hi⟩

/-- Witness for C5 at a concrete three-bit input and two-bit key. -/
theorem xor_bits_spec_witness :
    ∃ out, xor_bits [1, 0, 1] [1, 1] = some out ∧ out.length = [1, 0, 1].length ∧
      ∀ i, i < [1, 0, 1].length →
        out.getD i 0 = [1, 0, 1].getD i 0 ^^^ [1, 1].getD (i % [1, 1].length) 0 :=
  xor_bits_spec [1, 0, 1] [1, 1] (by decide)

/-- C6 evidence: with a total basis mismatch the sifted key is empty, and main
reaches the xor cipher with that empty key, hitting the modulo-by-zero
arithmetic fault (modelled as none); no explicit no-shared-key error is raised
before encryption. -/
theorem empty_key_arith_fault :
    a_key [1] [1] [0] = [] ∧
    xor_bits (string_to_bits [66]) (a_key [1] [1] [0]) = none ∧
    mainRun (fun b _ _ => b) [66] [1] [1] [0] [] false = none :=
  ⟨rfl, rfl, rfl⟩

/-- C7 evidence: string_to_bits performs no validation: code point 256 silently
becomes a nine-bit group that misaligns the codec (the round trip yields 128),
instead of being rejected with an unsupported-character error at encode time. -/
theorem unsupported_char_corruption :
    string_to_bits [256] = [1, 0, 0, 0, 0, 0, 0, 0, 0] ∧
    (string_to_bits [256]).length = 9 ∧
    bits_to_string (string_to_bits [256]) = [128] :=
  ⟨rfl, rfl, rfl⟩

/-- C9: with the eavesdropper flag set, main invokes the channel exactly twice
in series: first with the sender bits and sender basis against the
eavesdropper basis as receiver basis, then with the eavesdropper measured bits
as sender bits, the eavesdropper basis as sender basis, and the receiver basis
as receiver basis; the receiver bits are the result of the second call. -/
theorem eve_double_invocation (channel : List Nat → List Nat → List Nat → List Nat)
    (aBits aBasis bBasis eBasis : List Nat) :
    (runExchange channel aBits aBasis bBasis eBasis true).2.length = 2 ∧
    (runExchange channel aBits aBasis bBasis eBasis true).2
      = [(aBits, aBasis, eBasis), (channel aBits aBasis eBasis, eBasis, bBasis)] ∧
    (runExchange channel aBits aBasis bBasis eBasis true).1
      = channel (channel aBits aBasis eBasis) eBasis bBasis :=
  ⟨rfl, rfl, rfl⟩

/-- C10: bits_to_string decodes exactly the first 8 * floor(len/8) bits into
floor(len/8) code points and silently drops the trailing bits when the length
is not a multiple of eight; fewer than eight bits decode to the empty
string. -/
theorem decode_ignores_trailing (bits : List Nat) (h8 : bits.length % 8 ≠ 0) :
    (bits_to_string bits).length = bits.length / 8 ∧
    bits_to_string bits = bits_to_string (bits.take (8 * (bits.length / 8))) ∧
    (bits.length < 8 → bits_to_string bits = []) := by
  refine ⟨by simp [bits_to_string], ?_, ?_⟩
  · unfold bits_to_string
    have htl : (bits.take (8 * (bits.length / 8))).length = 8 * (bits.length / 8) := by
      rw [List.length_take]
      omega
    rw [htl]
    have hdd : 8 * (bits.length / 8) / 8 = bits.length / 8 := by omega
    rw [hdd]
    apply List.map_congr_left
    intro b hb
    rw [List.mem_range] at hb
    congr 1
    rw [List.drop_take, List.take_take]
    congr 1
    omega
  · intro hlt
    have hz : bits.length / 8 = 0 := by omega
    simp [bits_to_string, hz]

/-- Witness for C10 at a three-bit sequence. -/
theorem decode_ignores_trailing_witness :
    (bits_to_string [1, 1, 0]).length = [1, 1, 0].length / 8 ∧
    bits_to_string [1, 1, 0] = bits_to_string ([1, 1, 0].take (8 * ([1, 1, 0].length / 8))) ∧
    ([1, 1, 0].length < 8 → bits_to_string [1, 1, 0] = []) :=
  decode_ignores_trailing [1, 1, 0] (by decide)

/-- C1 (amended): with an ideal noiseless channel and no eavesdropper, the two
sifted keys are always equal, and whenever the two basis sequences agree in at
least one position the run of main completes with no interference flag and a
decrypted message equal to the original printable-ASCII message. (As literally
stated the claim fails: with no agreeing position and a non-empty message,
main faults inside xor_bits instead of producing the message; see the
counterexample theorem.) -/
theorem noEve_ideal_correct (channel : List Nat → List Nat → List Nat → List Nat)
    (hch : IdealChannel channel) (msg aBits aBasis bBasis : List Nat)
    (hA : aBasis.length = aBits.length) (hB : bBasis.length = aBasis.length)
    (hsz : 1 ≤ aBits.length) (hmsg : ∀ c ∈ msg, 32 ≤ c ∧ c ≤ 126) :
    a_key aBits aBasis bBasis = b_key (channel aBits aBasis bBasis) aBasis bBasis ∧
    ((∃ i, i < aBits.length ∧ aBasis.getD i 0 = bBasis.getD i 0) →
      mainRun channel msg aBits aBasis bBasis [] false = some (false, msg)) := by
  have hkeys := keys_equal_of_ideal channel hch aBits aBasis bBasis hA hB
  refine ⟨hkeys, ?_⟩
  rintro ⟨i, hi, hbas⟩
  have hmem : i ∈ goodBits aBasis bBasis := (mem_goodBits _ _ _).mpr ⟨by omega, hbas⟩
  have hane : a_key aBits aBasis bBasis ≠ [] := by
    rw [a_key_eq]
    intro hnil
    rw [List.map_eq_nil_iff] at hnil
    rw [hnil] at hmem
    exact List.not_mem_nil i hmem
  have h1 : xor_bits (string_to_bits msg) (a_key aBits aBasis bBasis)
      = some (xorCycle (string_to_bits msg) (a_key aBits aBasis bBasis)) :=
    xor_bits_some _ _ hane
  have h2 : xor_bits (xorCycle (string_to_bits msg) (a_key aBits aBasis bBasis))
      (b_key (channel aBits aBasis bBasis) aBasis bBasis) = some (string_to_bits msg) := by
    rw [← hkeys, xor_bits_some _ _ hane, xorCycle_involution]
  have hrt : bits_to_string (string_to_bits msg) = msg :=
    codec_roundtrip_aux msg fun c hc => by have := hmsg c hc; omega
  simp only [mainRun, runExchange, Bool.false_eq_true, if_false, h1, h2]
  simp [hkeys, hrt]

/-- Witness for C1 at the message Hi, two-bit keys, and the identity channel,
which is ideal. -/
theorem noEve_ideal_correct_witness :
    a_key [0, 1] [0, 1] [0, 0] = b_key ((fun b _ _ => b) [0, 1] [0, 1] [0, 0]) [0, 1] [0, 0] ∧
    mainRun (fun b _ _ => b) [72, 105] [0, 1] [0, 1] [0, 0] [] false = some (false, [72, 105]) :=
  ⟨(noEve_ideal_correct (fun b _ _ => b) ⟨fun _ _ _ => rfl, fun _ _ _ _ _ _ => rfl⟩
      [72, 105] [0, 1] [0, 1] [0, 0] rfl rfl (by decide) (by decide)).1,
    (noEve_ideal_correct (fun b _ _ => b) ⟨fun _ _ _ => rfl, fun _ _ _ _ _ _ => rfl⟩
      [72, 105] [0, 1] [0, 1] [0, 0] rfl rfl (by decide) (by decide)).2
      ⟨0, by decide, by decide⟩⟩

/-- Counterexample to C1 as literally stated: message A (printable ASCII),
key size 1 and an ideal (identity) channel, with sender basis 0 and receiver
basis 1. The bases never agree, the sifted keys are empty, and main faults in
xor_bits (result none) instead of producing a decrypted message equal to the
input. -/
theorem total_mismatch_no_output :
    mainRun (fun b _ _ => b) [65] [0] [0] [1] [] false = none := rfl

/-- C8: whenever the two sifted keys differ, main does not abort: it still
encrypts with the sender key, decrypts with the receiver key, reports
interference (flag true, the printed warning) and outputs the resulting
decoded message; a key mismatch is never an error. -/
theorem interference_warn_not_block (channel : List Nat → List Nat → List Nat → List Nat)
    (msg aBits aBasis bBasis eBasis : List Nat) (eve : Bool)
    (hlen : bBasis.length = aBasis.length)
    (hne : a_key aBits aBasis bBasis
      ≠ b_key (runExchange channel aBits aBasis bBasis eBasis eve).1 aBasis bBasis) :
    mainRun channel msg aBits aBasis bBasis eBasis eve
      = some (true, bits_to_string (xorCycle
          (xorCycle (string_to_bits msg) (a_key aBits aBasis bBasis))
          (b_key (runExchange channel aBits aBasis bBasis eBasis eve).1 aBasis bBasis))) := by
  have hlen2 : (a_key aBits aBasis bBasis).length
      = (b_key (runExchange channel aBits aBasis bBasis eBasis eve).1 aBasis bBasis).length := by
    simp [a_key, b_key, siftKey, hlen]
  have hane : a_key aBits aBasis bBasis ≠ [] := by
    intro hnil
    apply hne
    rw [hnil] at hlen2 ⊢
    exact (List.length_eq_zero.mp hlen2.symm).symm
  have hbne : b_key (runExchange channel aBits aBasis bBasis eBasis eve).1 aBasis bBasis ≠ [] := by
    intro hnil
    apply hne
    rw [hnil] at hlen2 ⊢
    exact List.length_eq_zero.mp hlen2
  have h1 : xor_bits (string_to_bits msg) (a_key aBits aBasis bBasis)
      = some (xorCycle (string_to_bits msg) (a_key aBits aBasis bBasis)) :=
    xor_bits_some _ _ hane
  have h2 : xor_bits (xorCycle (string_to_bits msg) (a_key aBits aBasis bBasis))
      (b_key (runExchange channel aBits aBasis bBasis eBasis eve).1 aBasis bBasis)
      = some (xorCycle (xorCycle (string_to_bits msg) (a_key aBits aBasis bBasis))
          (b_key (runExchange channel aBits aBasis bBasis eBasis eve).1 aBasis bBasis)) :=
    xor_bits_some _ _ hbne
  simp only [mainRun, h1, h2]
  rw [decide_eq_true hne]

/-- Witness for C8: a constant channel flips both matched bits, so the keys
differ and main still outputs the garbled decoded message with the warning
flag set. -/
theorem interference_warn_not_block_witness :
    mainRun (fun _ _ _ => [0, 0]) [65] [1, 1] [0, 0] [0, 0] [] false
      = some (true, bits_to_string (xorCycle
          (xorCycle (string_to_bits [65]) (a_key [1, 1] [0, 0] [0, 0]))
          (b_key (runExchange (fun _ _ _ => [0, 0]) [1, 1] [0, 0] [0, 0] [] false).1
            [0, 0] [0, 0]))) :=
  interference_warn_not_block (fun _ _ _ => [0, 0]) [65] [1, 1] [0, 0] [0, 0] [] false
    rfl (by decide)
